import Mathlib

/-!
Verification development for the document ingestion and lexical retrieval
core of the goncalinho-chat server (`src/server.js`).

Strings are modelled as sequences of Unicode scalar values (Lean `String`);
JavaScript's UTF-16 `length` is modelled by codepoint count and its
Unicode-aware `toLowerCase` by per-character lowering.  Recursions that are
not structural in the scanned list are driven by a fuel argument equal to
the list length, so every definition computes by kernel reduction.
-/

namespace Goncalinho

/-- The character class of JavaScript's regex `\s` (which is also the set
removed by `String.prototype.trim`). -/
def jsWhitespace (c : Char) : Bool :=
  let n := c.toNat
  n = 9 || n = 10 || n = 11 || n = 12 || n = 13 || n = 32 || n = 160 ||
    n = 5760 || (8192 ≤ n && n ≤ 8202) || n = 8232 || n = 8233 ||
    n = 8239 || n = 8287 || n = 12288 || n = 65279

/-- JavaScript `String.prototype.trim`. -/
def jsTrim (s : String) : String :=
  String.mk (((s.data.dropWhile jsWhitespace).reverse.dropWhile jsWhitespace).reverse)

/-- JavaScript `String.prototype.toLowerCase`, modelled per character. -/
def jsToLower (s : String) : String := String.mk (s.data.map Char.toLower)

/-- Helper for the substring test: does `needle` occur inside the scanned
list? -/
def subAux (needle : List Char) : List Char → Bool
  | [] => needle.isEmpty
  | c :: rest => needle.isPrefixOf (c :: rest) || subAux needle rest

/-- `containsSub s t` models the JavaScript expression `s.includes(t)`. -/
def containsSub (s t : String) : Bool := subAux t.data s.data

/-- Scanner for the split on the regex `/\n\s*\n/` used by `chunkText`
(src/server.js:140).  `acc` holds the current paragraph reversed.  A
separator is a `'\n'` whose following maximal whitespace run contains
another `'\n'`; the leftmost greedy match extends through the last `'\n'`
of that run. -/
def splitParasAux : Nat → List Char → List Char → List String
  | _, [], acc => [String.mk acc.reverse]
  | 0, rest, acc => [String.mk (acc.reverse ++ rest)]
  | fuel + 1, c :: rest, acc =>
    if c = '\n' then
      let run := rest.takeWhile jsWhitespace
      if run.contains '\n' then
        let keep := (run.reverse.takeWhile (fun d => !(d = '\n'))).reverse
        String.mk acc.reverse :: splitParasAux fuel (keep ++ rest.drop run.length) []
      else
        splitParasAux fuel rest (c :: acc)
    else
      splitParasAux fuel rest (c :: acc)

/-- `text.split(/\n\s*\n/)` from src/server.js:140. -/
def splitParas (s : String) : List String :=
  splitParasAux s.data.length s.data []

/-- The paragraph-accumulation loop of `chunkText` (src/server.js:143-151);
`cc` is the JavaScript variable `currentChunk`. -/
def chunkTextLoop (targetSize : Nat) : List String → String → List String
  | [], cc => if cc = "" then [] else [jsTrim cc]
  | p :: ps, cc =>
    if targetSize < (cc ++ p).length ∧ 0 < cc.length then
      jsTrim cc :: chunkTextLoop targetSize ps p
    else
      chunkTextLoop targetSize ps (cc ++ (if cc = "" then ("") else ("\n\n")) ++ p)

/-- `chunkText(text, targetSize)` from src/server.js:138-153. -/
def chunkText (text : String) (targetSize : Nat) : List String :=
  chunkTextLoop targetSize (splitParas text) ""

/-- The string the `chunkText` loop accumulates for a group of paragraphs:
successive paragraphs joined by a blank line, with no separator in front of
an empty buffer. -/
def joinParas (g : List String) : String :=
  g.foldl (fun cc p => cc ++ (if cc = "" then ("") else ("\n\n")) ++ p) ""

/-- Mirror of `chunkTextLoop` that records which paragraphs go into each
produced chunk instead of the rendered strings. -/
def chunkGroupsLoop (targetSize : Nat) : List String → List String → List (List String)
  | [], g => if joinParas g = "" then [] else [g]
  | p :: ps, g =>
    if targetSize < (joinParas g ++ p).length ∧ 0 < (joinParas g).length then
      g :: chunkGroupsLoop targetSize ps [p]
    else
      chunkGroupsLoop targetSize ps (g ++ [p])

/-- The partition of the paragraphs of `text` into the consecutive groups
from which `chunkText text targetSize` renders its chunks. -/
def chunkGroups (text : String) (targetSize : Nat) : List (List String) :=
  chunkGroupsLoop targetSize (splitParas text) []

/-- A parsed table row: an ordered mapping from column name to rendered
value, in the object's `Object.keys` order. -/
abbrev Row := List (String × String)

/-- `row[h]`, with a missing key rendered as the empty string (the code
maps `null`/`undefined` cells to `''`, src/server.js:174). -/
def rowGet (r : Row) (h : String) : String :=
  match r.find? (fun kv => kv.1 == h) with
  | some kv => kv.2
  | none => ""

/-- `String(val).replace(/[\n\r]+/g, ' ')` (src/server.js:176): collapse
every run of `'\n'`/`'\r'` to one space.  The flag records whether the
previous character was part of such a run. -/
def collapseNL : List Char → Bool → List Char
  | [], _ => []
  | c :: rest, inRun =>
    if c = '\n' || c = '\r' then
      (if inRun then [] else [' ']) ++ collapseNL rest true
    else
      c :: collapseNL rest false

/-- Cell rendering of `chunkTable` (src/server.js:171-177). -/
def cleanCell (s : String) : String :=
  jsTrim (String.mk (collapseNL s.data false))

/-- One rendered data line of a table chunk: the row's values in header
order, joined by `' ; '`. -/
def renderRow (headers : List String) (r : Row) : String :=
  String.intercalate (" ; ") (headers.map (fun h => cleanCell (rowGet r h)))

/-- One rendered table chunk: the header line followed by one line per row
(src/server.js:169-178). -/
def renderGroup (headers : List String) (g : List Row) : String :=
  String.intercalate (" ; ") headers ++ "\n" ++
    String.intercalate ("\n") (g.map (renderRow headers))

/-- Consecutive slices `rows.slice(i, i + n)` of the loop at
src/server.js:164.  Fuel-indexed; the source loop never terminates for
`n = 0`, a case no caller exercises (all callers pass 20). -/
def groupsOfAux {α : Type} : Nat → Nat → List α → List (List α)
  | _, _, [] => []
  | 0, _, _ => []
  | fuel + 1, n, x :: xs => (x :: xs).take n :: groupsOfAux fuel n ((x :: xs).drop n)

/-- The row groups `chunkTable` slices `rows` into. -/
def groupsOf {α : Type} (n : Nat) (xs : List α) : List (List α) :=
  groupsOfAux xs.length n xs

/-- `Object.keys(rows[0])` (src/server.js:162). -/
def headersOf (rows : List Row) : List String :=
  match rows with
  | [] => []
  | r0 :: _ => r0.map (fun kv => kv.1)

/-- `chunkTable(rows, size)` from src/server.js:157-183. -/
def chunkTable (rows : List Row) (size : Nat) : List String :=
  match rows with
  | [] => []
  | r0 :: _ => (groupsOf size rows).map (renderGroup (r0.map (fun kv => kv.1)))

/-- A stored chunk record as written by the upload route
(src/server.js:249-259). -/
structure Chunk where
  id : String
  fileId : String
  content : String
  category : String
  caseName : String
  description : String
  source : String
  period : String
  fileName : String
deriving DecidableEq, Repr

/-- Scanner for `query.split(/\s+/)`: separators are maximal whitespace
runs, and a leading or trailing run contributes an empty token, exactly as
in JavaScript. -/
def splitWsAux : Nat → List Char → List Char → List String
  | _, [], acc => [String.mk acc.reverse]
  | 0, rest, acc => [String.mk (acc.reverse ++ rest)]
  | fuel + 1, c :: rest, acc =>
    if jsWhitespace c then
      String.mk acc.reverse :: splitWsAux fuel (rest.dropWhile jsWhitespace) []
    else
      splitWsAux fuel rest (c :: acc)

/-- `s.split(/\s+/)`. -/
def splitWs (s : String) : List String :=
  splitWsAux s.data.length s.data []

/-- `queryLower.split(/\s+/).filter(w => w.length > 2)`
(src/server.js:190-191). -/
def queryTerms (q : String) : List String :=
  (splitWs (jsToLower q)).filter (fun w => 2 < w.length)

/-- The category-filter guard of `searchChunks` (src/server.js:195): the
chunk is excluded when the filter is set (truthy, hence non-empty), is not
the default category `'Geral'`, and differs from the chunk's category. -/
def excluded (filt : Option String) (c : Chunk) : Bool :=
  match filt with
  | none => false
  | some v => !(v == "") && !(v == ("Geral")) && !(c.category == v)

/-- The score `searchChunks` attaches to one chunk (src/server.js:194-209):
`-1` for an excluded chunk, otherwise `+1` per query term contained in the
lower-cased content, `+3` for a non-empty `caseName` contained in the
lower-cased query, `+2` likewise for `description`. -/
def scoreOf (filt : Option String) (q : String) (c : Chunk) : Int :=
  if excluded filt c then -1
  else
    let queryLower := jsToLower q
    let contentLower := jsToLower c.content
    let base := (queryTerms q).foldl
      (fun s t => if containsSub contentLower t then s + 1 else s) 0
    let s1 := if !(c.caseName == "") && containsSub queryLower (jsToLower c.caseName) then
        base + 3
      else base
    if !(c.description == "") && containsSub queryLower (jsToLower c.description) then
      s1 + 2
    else s1

/-- Stable descending insertion: skips the entries that score strictly
higher, so equal scores keep their original relative order.  This is the
unique stable descending order, i.e. the result of the JavaScript stable
`sort((a, b) => b.score - a.score)` (src/server.js:212). -/
def insertDesc (x : Chunk × Int) : List (Chunk × Int) → List (Chunk × Int)
  | [] => [x]
  | y :: ys => if x.2 < y.2 then y :: insertDesc x ys else x :: y :: ys

/-- Stable sort by descending score. -/
def isortDesc : List (Chunk × Int) → List (Chunk × Int)
  | [] => []
  | x :: xs => insertDesc x (isortDesc xs)

/-- The scored-and-kept list of `searchChunks`: every stored chunk paired
with its score, then filtered to positive scores (src/server.js:193-211). -/
def scoredOf (store : List Chunk) (q : String) (filt : Option String) : List (Chunk × Int) :=
  (store.map (fun c => (c, scoreOf filt q c))).filter (fun x => 0 < x.2)

/-- `searchChunks(query, categoryFilter)` from src/server.js:186-214, with
the chunk store passed explicitly in place of the `chunks.json` read. -/
def searchChunks (store : List Chunk) (q : String) (filt : Option String) : List (Chunk × Int) :=
  (isortDesc (scoredOf store q filt)).take 15

/-- The per-chunk score exactly as the specification words it: `+1` for
each query term found as a substring of the lower-cased content (each term
counted at most once regardless of how often it occurs there), `+3` for a
non-empty `caseName` contained in the lower-cased query, `+2` likewise for
`description`. -/
def specScoreC1 (q : String) (c : Chunk) : Int :=
  (((queryTerms q).countP (fun t => containsSub (jsToLower c.content) t) : Nat) : Int) +
    (if !(c.caseName == "") && containsSub (jsToLower q) (jsToLower c.caseName) then 3 else 0) +
    (if !(c.description == "") && containsSub (jsToLower q) (jsToLower c.description) then 2 else 0)

/-- A stored document record (`db.json` entry, src/server.js:234-244);
only the fields the delete route consults are modelled. -/
structure DocFile where
  id : String
  name : String
deriving DecidableEq, Repr

/-- The state change of `DELETE /api/files/:id` (src/server.js:269-281):
keep the documents whose id differs and the chunks whose `fileId`
differs. -/
def deleteDocument (files : List DocFile) (chunks : List Chunk) (did : String) :
    List DocFile × List Chunk :=
  (files.filter (fun f => !(f.id == did)), chunks.filter (fun c => !(c.fileId == did)))

/-- A failure of the backing medium (`fs.writeFileSync` throwing). -/
inductive WriteErr where
  | diskFull
  | denied
deriving DecidableEq, Repr

/-- `writeJson` (src/server.js:62-68): the attempted write is wrapped in
`try { ... } catch (e) { console.error(...) }`, so a failure is logged and
swallowed and the function always returns normally. -/
def writeJson (attempt : Except WriteErr Unit) : Except WriteErr Unit :=
  match attempt with
  | Except.ok _ => Except.ok ()
  | Except.error _ => Except.ok ()

/-- The three responses of `POST /api/upload`. -/
inductive UploadOutcome where
  | badRequest
  | processingFailed
  | success (chunkCount : Nat)
deriving DecidableEq, Repr

/-- Control flow of `POST /api/upload` (src/server.js:223-267): reject a
missing file with 400; any exception inside the `try` block yields the 500
`'Processing failed'` response; otherwise the document and chunk writes run
through `writeJson` and the new document is returned.  A `writeJson` result
of `.error` would be caught by the route's `catch`, which is why the
`.error` arms map to `processingFailed`. -/
def uploadRoute (hasFile : Bool) (extraction : Except Unit (List String))
    (dbWrite chunksWrite : Except WriteErr Unit) : UploadOutcome :=
  if hasFile = false then UploadOutcome.badRequest
  else
    match extraction with
    | Except.error _ => UploadOutcome.processingFailed
    | Except.ok cs =>
      match writeJson dbWrite with
      | Except.error _ => UploadOutcome.processingFailed
      | Except.ok _ =>
        match writeJson chunksWrite with
        | Except.error _ => UploadOutcome.processingFailed
        | Except.ok _ => UploadOutcome.success cs.length

/-- Forget a chunk's `period` field. -/
def eraseP (c : Chunk) : Chunk := { c with period := "" }

/-- Strip the period field of a scored search result. -/
def stripPeriod (r : Chunk × Int) : Chunk × Int := (eraseP r.1, r.2)

/- Demonstration records used by the witness theorems. -/

def cDemo : Chunk := ⟨("c0"), ("f0"), ("abcdef casos"), ("Saude"), (""), (""), (""), ("2023"), ("doc.txt")⟩

def cBonus : Chunk := ⟨("c1"), ("f1"), (""), ("Geral"), ("ab"), (""), (""), (""), ("")⟩

def cPlain : Chunk := ⟨("c2"), ("f2"), ("whatever"), ("Geral"), (""), (""), (""), (""), ("")⟩

def cCat : Chunk := ⟨("c3"), ("f3"), ("orcamento anual"), ("Financas"), (""), (""), (""), (""), ("")⟩

def cOther : Chunk := ⟨("c4"), ("f4"), ("orcamento anual"), ("Saude"), (""), (""), (""), (""), ("")⟩

def cP23 : Chunk := ⟨("c5"), ("f5"), ("casos de dengue"), ("Geral"), (""), (""), (""), ("2023"), ("")⟩

def cP99 : Chunk := ⟨("c5"), ("f5"), ("casos de dengue"), ("Geral"), (""), (""), (""), ("1999"), ("")⟩

def dA : DocFile := ⟨("a"), ("first.txt")⟩

def dB : DocFile := ⟨("b"), ("second.txt")⟩

def rowsW : List Row := [[(("a"), ("1")), (("b"), ("2"))], [(("a"), ("3"))]]

example : splitParas ("a\n\n \n\nb") = [("a"), ("b")] := by decide
example : splitParas ("a\nb") = [("a\nb")] := by decide
example : splitParas ("") = [("")] := by decide
example : splitParas ("\n\na\n\n") = [(""), ("a"), ("")] := by decide
example : chunkText ("aaaa\n\nbbbb") 8 = [("aaaa\n\nbbbb")] := by decide
example : chunkText ("aaaa\n\nbbbb") 7 = [("aaaa"), ("bbbb")] := by decide
example : chunkText ("") 1000 = [] := by decide
example : queryTerms (" ab casos  de") = [("casos")] := by decide
example : chunkTable [] 20 = [] := by decide
example :
    chunkTable [[(("a"), ("1")), (("b"), ("x\ny"))], [(("a"), ("2"))]] 20 =
      [("a ; b\n1 ; x y\n2 ; ")] := by decide

/-! ### Generic helper lemmas -/

theorem str_empty_append (s : String) : ("") ++ s = s := by
  apply String.ext
  rw [String.data_append]
  exact List.nil_append s.data

theorem str_append_eq_empty {s t : String} : s ++ t = "" ↔ s = "" ∧ t = "" := by
  constructor
  · intro h
    have hd : s.data ++ t.data = [] := by
      have := congrArg String.data h
      rwa [String.data_append] at this
    rcases List.append_eq_nil.mp hd with ⟨hs, ht⟩
    exact ⟨String.ext hs, String.ext ht⟩
  · rintro ⟨hs, ht⟩
    rw [hs, ht]
    rfl

theorem str_length_pos_iff {s : String} : 0 < s.length ↔ ¬ s = "" := by
  constructor
  · intro h hs
    rw [hs] at h
    exact absurd h (by decide)
  · intro h
    cases s with
    | mk data =>
      cases data with
      | nil => exact absurd (String.ext rfl) h
      | cons c cs => simp [String.length]

theorem dropWhile_length_le (p : Char → Bool) (l : List Char) :
    (l.dropWhile p).length ≤ l.length := by
  induction l with
  | nil => simp [List.dropWhile]
  | cons c cs ih =>
      simp only [List.dropWhile]
      cases p c
      · simp
      · simp
        omega

theorem jsTrim_length_le (s : String) : (jsTrim s).length ≤ s.length := by
  have h1 := dropWhile_length_le jsWhitespace s.data
  have h2 := dropWhile_length_le jsWhitespace (s.data.dropWhile jsWhitespace).reverse
  simp only [jsTrim, String.length, List.length_reverse] at h1 h2 ⊢
  omega

theorem foldl_count_terms (p : String → Bool) :
    (l : List String) → (init : Int) →
    l.foldl (fun s t => if p t then s + 1 else s) init = init + (l.countP p : Nat)
  | [], init => by simp
  | a :: l, init => by
      simp only [List.foldl, List.countP_cons, foldl_count_terms p l]
      cases h : p a
      · simp
      · simp
        omega

/-! ### Membership and order lemmas for the retrieval engine -/

theorem mem_insertDesc {x y : Chunk × Int} :
    (l : List (Chunk × Int)) → (y ∈ insertDesc x l ↔ y = x ∨ y ∈ l)
  | [] => by simp [insertDesc]
  | z :: l => by
      simp only [insertDesc]
      split
      · simp only [List.mem_cons, mem_insertDesc l]
        tauto
      · simp only [List.mem_cons]

theorem mem_isortDesc {y : Chunk × Int} :
    (l : List (Chunk × Int)) → (y ∈ isortDesc l ↔ y ∈ l)
  | [] => by simp [isortDesc]
  | x :: l => by
      simp only [isortDesc, mem_insertDesc, mem_isortDesc l, List.mem_cons]

theorem pairwise_insertDesc {x : Chunk × Int} {l : List (Chunk × Int)}
    (h : l.Pairwise (fun a b => b.2 ≤ a.2)) :
    (insertDesc x l).Pairwise (fun a b => b.2 ≤ a.2) := by
  induction l with
  | nil => simp [insertDesc]
  | cons y ys ih =>
      rcases List.pairwise_cons.mp h with ⟨hy, hys⟩
      simp only [insertDesc]
      split
      · rename_i hlt
        refine List.pairwise_cons.mpr ⟨?_, ih hys⟩
        intro z hz
        rcases (mem_insertDesc ys).mp hz with hzx | hzys
        · rw [hzx]
          omega
        · exact hy z hzys
      · rename_i hge
        refine List.pairwise_cons.mpr ⟨?_, h⟩
        intro z hz
        rcases List.mem_cons.mp hz with hzy | hzys
        · rw [hzy]
          omega
        · have := hy z hzys
          omega

theorem pairwise_isortDesc :
    (l : List (Chunk × Int)) → (isortDesc l).Pairwise (fun a b => b.2 ≤ a.2)
  | [] => by simp [isortDesc]
  | x :: l => pairwise_insertDesc (pairwise_isortDesc l)

theorem filter_insertDesc (s : Int) (x : Chunk × Int) :
    (l : List (Chunk × Int)) →
    (insertDesc x l).filter (fun y => y.2 = s) =
      if x.2 = s then x :: l.filter (fun y => y.2 = s)
      else l.filter (fun y => y.2 = s)
  | [] => by
      by_cases hxs : x.2 = s <;> simp [insertDesc, hxs]
  | y :: ys => by
      simp only [insertDesc]
      split
      · rename_i hlt
        by_cases hys : y.2 = s
        · have hxne : ¬ x.2 = s := by omega
          simp [List.filter_cons, hys, hxne, filter_insertDesc s x ys]
        · simp [List.filter_cons, hys, filter_insertDesc s x ys]
      · rename_i hge
        by_cases hxs : x.2 = s <;> simp [List.filter_cons, hxs]

theorem filter_isortDesc (s : Int) :
    (l : List (Chunk × Int)) →
    (isortDesc l).filter (fun y => y.2 = s) = l.filter (fun y => y.2 = s)
  | [] => rfl
  | x :: l => by
      by_cases hxs : x.2 = s <;>
        simp [isortDesc, filter_insertDesc, List.filter_cons, filter_isortDesc s l, hxs]

theorem mem_searchChunks {store : List Chunk} {q : String} {filt : Option String}
    {r : Chunk × Int} (hr : r ∈ searchChunks store q filt) :
    (∃ c ∈ store, r = (c, scoreOf filt q c)) ∧ 0 < r.2 := by
  have h1 : r ∈ isortDesc (scoredOf store q filt) := List.mem_of_mem_take hr
  have h2 : r ∈ scoredOf store q filt := (mem_isortDesc _).mp h1
  rcases List.mem_filter.mp h2 with ⟨h3, h4⟩
  rcases List.mem_map.mp h3 with ⟨c, hc, hce⟩
  exact ⟨⟨c, hc, hce.symm⟩, of_decide_eq_true h4⟩

/-! ### Claim theorems -/

/-- C1: for every stored chunk not excluded by the category filter and
every query, `searchChunks` scores the chunk exactly as the specification
words it (`+1` per query term contained in the lower-cased content, `+3`
for a non-empty `caseName` contained in the lower-cased query, `+2`
likewise for `description`), and only chunks with positive score are
returned. -/
theorem search_score_formula (q : String) (filt : Option String) (store : List Chunk) :
    (∀ c : Chunk, excluded filt c = false → scoreOf filt q c = specScoreC1 q c) ∧
    (∀ r ∈ searchChunks store q filt, 0 < r.2) := by
  constructor
  · intro c h
    simp only [scoreOf, specScoreC1, h, Bool.false_eq_true, if_false]
    rw [foldl_count_terms]
    have he : (queryTerms q).countP (containsSub (jsToLower c.content)) =
        (queryTerms q).countP (fun t => containsSub (jsToLower c.content) t) := rfl
    rw [he]
    split
    · split
      · omega
      · omega
    · split
      · omega
      · omega
  · intro r hr
    exact (mem_searchChunks hr).2

/-- Witness for C1 at a concrete chunk and query. -/
theorem search_score_formula_witness :
    scoreOf none ("abc") cDemo = specScoreC1 ("abc") cDemo ∧ 0 < ((cDemo, (1 : Int))).2 :=
  ⟨(search_score_formula ("abc") none [cDemo]).1 cDemo (by decide),
    (search_score_formula ("abc") none [cDemo]).2 (cDemo, 1) (by decide)⟩

/-- C5 (code-bug evidence): `writeJson` swallows a backing-medium failure
(it logs and returns normally), so an upload whose database write fails on
a full disk is still answered with the success response, not with the 500
processing error the specification requires for a store write failure. -/
theorem upload_swallows_write_failure :
    writeJson (Except.error WriteErr.diskFull) = Except.ok () ∧
    uploadRoute true (Except.ok [("x")]) (Except.error WriteErr.diskFull) (Except.ok ()) =
      UploadOutcome.success 1 ∧
    ¬ uploadRoute true (Except.ok [("x")]) (Except.error WriteErr.diskFull) (Except.ok ()) =
      UploadOutcome.processingFailed := by
  refine ⟨rfl, rfl, ?_⟩
  decide

/-- C6 counterexample: the query `"ab"` has an empty term set (its only
token is shorter than 3 characters), yet a chunk whose `caseName` is
`"ab"` still scores the `+3` bonus and is returned, so the result is not
empty. -/
theorem search_empty_terms_cex :
    queryTerms ("ab") = [] ∧ ¬ searchChunks [cBonus] ("ab") none = [] := by
  constructor
  · decide
  · decide

/-- C6 (amended): search never errors; an empty store yields the empty
result, and a query with an empty term set yields the empty result
provided no chunk's non-empty `caseName` or `description` is contained in
the lower-cased query (the metadata bonuses can still select chunks even
without any query term). -/
theorem search_empty_amended (q : String) (filt : Option String) (store : List Chunk) :
    searchChunks [] q filt = [] ∧
    (queryTerms q = [] →
      (∀ c ∈ store,
        (!(c.caseName == "") && containsSub (jsToLower q) (jsToLower c.caseName)) = false ∧
        (!(c.description == "") && containsSub (jsToLower q) (jsToLower c.description)) = false) →
      searchChunks store q filt = []) := by
  constructor
  · rfl
  · intro ht hb
    have hscored : scoredOf store q filt = [] := by
      apply List.filter_eq_nil_iff.mpr
      intro x hx
      rcases List.mem_map.mp hx with ⟨c, hc, hce⟩
      have hsc : scoreOf filt q c ≤ 0 := by
        simp only [scoreOf]
        split
        · omega
        · rw [ht]
          simp only [List.foldl]
          rw [(hb c hc).1, (hb c hc).2]
          simp
      rw [← hce]
      simp only [decide_eq_true_eq]
      omega
    simp [searchChunks, hscored, isortDesc]

/-- Witness for C6's amended theorem at a concrete store and query. -/
theorem search_empty_amended_witness :
    queryTerms ("xy") = [] ∧ searchChunks [cPlain] ("xy") none = [] :=
  ⟨by decide, (search_empty_amended ("xy") none [cPlain]).2 (by decide) (by decide)⟩

/-- C7: when the category filter is set (truthy, hence non-empty) and is
not the default `'Geral'` category, every chunk returned by `searchChunks`
has exactly the filtered category. -/
theorem search_category_exclusive (store : List Chunk) (q : String) (v : String)
    (hv0 : ¬ v = "") (hv : ¬ v = ("Geral")) :
    ∀ r ∈ searchChunks store q (some v), r.1.category = v := by
  intro r hr
  rcases mem_searchChunks hr with ⟨⟨c, _, hce⟩, hpos⟩
  by_cases hcat : c.category = v
  · rw [hce]
    exact hcat
  · exfalso
    have hexc : excluded (some v) c = true := by
      simp [excluded, hv0, hv, hcat]
    have : scoreOf (some v) q c = -1 := by
      simp [scoreOf, hexc]
    rw [hce] at hpos
    simp only [this] at hpos
    omega

/-- Witness for C7: a concrete search with the filter `"Financas"` returns
the matching chunk, whose category is indeed `"Financas"`. -/
theorem search_category_exclusive_witness :
    (cCat, (1 : Int)) ∈ searchChunks [cOther, cCat] ("orcamento") (some ("Financas")) ∧
    ((cCat, (1 : Int))).1.category = ("Financas") :=
  ⟨by decide,
    search_category_exclusive [cOther, cCat] ("orcamento") ("Financas")
      (by decide) (by decide) (cCat, 1) (by decide)⟩

/-- C8: the search result is the first 15 entries of the stable descending
sort of the positively scored chunks; hence at most 15 results, scores
descending, and chunks with equal scores keep their original scan order
(the filtered subsequence at each score value is unchanged by the sort). -/
theorem search_sorted_bounded (store : List Chunk) (q : String) (filt : Option String) :
    searchChunks store q filt = (isortDesc (scoredOf store q filt)).take 15 ∧
    (searchChunks store q filt).length ≤ 15 ∧
    (searchChunks store q filt).Pairwise (fun a b => b.2 ≤ a.2) ∧
    (∀ s : Int, (isortDesc (scoredOf store q filt)).filter (fun y => y.2 = s) =
      (scoredOf store q filt).filter (fun y => y.2 = s)) := by
  refine ⟨rfl, List.length_take_le 15 _, ?_, fun s => filter_isortDesc s _⟩
  exact List.Pairwise.sublist (List.take_sublist 15 _) (pairwise_isortDesc _)

/-- C9: the delete route removes exactly the document with the given id and
the chunks whose `fileId` matches it; everything else survives, and when
nothing matches the state is unchanged (a no-op, not an error). -/
theorem delete_cascades (files : List DocFile) (chunks : List Chunk) (did : String) :
    (∀ f ∈ (deleteDocument files chunks did).1, ¬ f.id = did) ∧
    (∀ c ∈ (deleteDocument files chunks did).2, ¬ c.fileId = did) ∧
    (∀ f ∈ files, ¬ f.id = did → f ∈ (deleteDocument files chunks did).1) ∧
    (∀ c ∈ chunks, ¬ c.fileId = did → c ∈ (deleteDocument files chunks did).2) ∧
    ((∀ f ∈ files, ¬ f.id = did) → (deleteDocument files chunks did).1 = files) ∧
    ((∀ c ∈ chunks, ¬ c.fileId = did) → (deleteDocument files chunks did).2 = chunks) := by
  refine ⟨?_, ?_, ?_, ?_, ?_, ?_⟩
  · intro f hf
    rcases List.mem_filter.mp hf with ⟨_, hp⟩
    simpa using hp
  · intro c hc
    rcases List.mem_filter.mp hc with ⟨_, hp⟩
    simpa using hp
  · intro f hf hne
    exact List.mem_filter.mpr ⟨hf, by simpa using hne⟩
  · intro c hc hne
    exact List.mem_filter.mpr ⟨hc, by simpa using hne⟩
  · intro hall
    apply List.filter_eq_self.mpr
    intro f hf
    simpa using hall f hf
  · intro hall
    apply List.filter_eq_self.mpr
    intro c hc
    simpa using hall c hc

/-- Witness for C9 on a concrete store: deleting id `"a"` keeps the
document with id `"b"`. -/
theorem delete_cascades_witness :
    dB ∈ (deleteDocument [dA, dB] [cDemo] ("a")).1 :=
  (delete_cascades [dA, dB] [cDemo] ("a")).2.2.1 dB (by decide) (by decide)

/-! ### Period noninterference (C10) -/

theorem scoreOf_eraseP (filt : Option String) (q : String) (c : Chunk) :
    scoreOf filt q (eraseP c) = scoreOf filt q c := rfl

theorem map_stripPeriod_insertDesc (x : Chunk × Int) :
    (l : List (Chunk × Int)) →
    (insertDesc x l).map stripPeriod = insertDesc (stripPeriod x) (l.map stripPeriod)
  | [] => rfl
  | y :: ys => by
      by_cases hlt : x.2 < y.2
      · have h1 : insertDesc x (y :: ys) = y :: insertDesc x ys := by
          simp [insertDesc, hlt]
        have h2 : insertDesc (stripPeriod x) (stripPeriod y :: ys.map stripPeriod) =
            stripPeriod y :: insertDesc (stripPeriod x) (ys.map stripPeriod) := by
          simp [insertDesc, stripPeriod, hlt]
        rw [h1]
        simp only [List.map_cons]
        rw [map_stripPeriod_insertDesc x ys, h2]
      · have h1 : insertDesc x (y :: ys) = x :: y :: ys := by
          simp [insertDesc, hlt]
        have h2 : insertDesc (stripPeriod x) (stripPeriod y :: ys.map stripPeriod) =
            stripPeriod x :: stripPeriod y :: ys.map stripPeriod := by
          simp [insertDesc, stripPeriod, hlt]
        rw [h1]
        simp only [List.map_cons]
        rw [h2]

theorem map_stripPeriod_isortDesc :
    (l : List (Chunk × Int)) → (isortDesc l).map stripPeriod = isortDesc (l.map stripPeriod)
  | [] => rfl
  | x :: l => by
      simp only [isortDesc, List.map_cons, map_stripPeriod_insertDesc,
        map_stripPeriod_isortDesc l]

theorem map_stripPeriod_filter :
    (l : List (Chunk × Int)) →
    (l.filter (fun x => 0 < x.2)).map stripPeriod =
      (l.map stripPeriod).filter (fun x => 0 < x.2)
  | [] => rfl
  | x :: l => by
      by_cases hx : 0 < x.2 <;>
        simp [List.filter_cons, stripPeriod, hx, map_stripPeriod_filter l]

theorem searchChunks_stripPeriod (q : String) (filt : Option String) (s : List Chunk) :
    (searchChunks s q filt).map stripPeriod =
      (isortDesc (((s.map eraseP).map (fun c => (c, scoreOf filt q c))).filter
        (fun x => 0 < x.2))).take 15 := by
  simp only [searchChunks, scoredOf]
  rw [List.map_take, map_stripPeriod_isortDesc, map_stripPeriod_filter]
  have hmm : (s.map (fun c => (c, scoreOf filt q c))).map stripPeriod =
      (s.map eraseP).map (fun c => (c, scoreOf filt q c)) := by
    rw [List.map_map, List.map_map]
    apply List.map_congr_left
    intro c _
    simp only [Function.comp, stripPeriod]
    rw [scoreOf_eraseP]
  rw [hmm]

/-- C10: the score and ranking of `searchChunks` do not depend on the
chunks' `period` fields: two stores that agree after erasing every period
produce, for every query and filter, the same results up to the stored
period text itself. -/
theorem search_ignores_period (q : String) (filt : Option String) (s₁ s₂ : List Chunk)
    (h : s₁.map eraseP = s₂.map eraseP) :
    (searchChunks s₁ q filt).map stripPeriod = (searchChunks s₂ q filt).map stripPeriod := by
  rw [searchChunks_stripPeriod, searchChunks_stripPeriod, h]

/-- Witness for C10: two one-chunk stores differing only in the period
("2023" vs "1999") give identical search results after stripping the
period. -/
theorem search_ignores_period_witness :
    [cP23].map eraseP = [cP99].map eraseP ∧
    (searchChunks [cP23] ("casos") none).map stripPeriod =
      (searchChunks [cP99] ("casos") none).map stripPeriod :=
  ⟨by decide, search_ignores_period ("casos") none [cP23] [cP99] (by decide)⟩

/-! ### Table chunking (C3) -/

theorem groupsOfAux_flatten {α : Type} :
    (fuel : Nat) → (n : Nat) → (xs : List α) → 0 < n → xs.length ≤ fuel →
    (groupsOfAux fuel n xs).flatten = xs
  | fuel, _, [], _, _ => by cases fuel <;> rfl
  | 0, _, x :: xs, _, hlen => by
      exact absurd hlen (by simp)
  | fuel + 1, n, x :: xs, hn, hlen => by
      have hrec : ((x :: xs).drop n).length ≤ fuel := by
        rw [List.length_drop]
        simp only [List.length_cons] at hlen ⊢
        omega
      simp only [groupsOfAux, List.flatten_cons,
        groupsOfAux_flatten fuel n ((x :: xs).drop n) hn hrec]
      exact List.take_append_drop n (x :: xs)

theorem groupsOf_flatten {α : Type} (n : Nat) (xs : List α) (hn : 0 < n) :
    (groupsOf n xs).flatten = xs :=
  groupsOfAux_flatten xs.length n xs hn (Nat.le_refl _)

/-- C3: `chunkTable` on the empty row sequence yields no chunks; on a
non-empty sequence it renders the consecutive 20-row groups of the input,
every chunk using the header list taken from the first row's keys (so the
header line and the column order of every chunk follow the first row), and
the groups partition the rows exactly, so the total number of data rows
across all chunks equals the input row count. -/
theorem chunkTable_conservation (rows : List Row) :
    (rows = [] → chunkTable rows 20 = []) ∧
    (¬ rows = [] →
      chunkTable rows 20 = (groupsOf 20 rows).map (renderGroup (headersOf rows)) ∧
      (groupsOf 20 rows).flatten = rows ∧
      ((groupsOf 20 rows).map (fun g => g.length)).sum = rows.length) := by
  constructor
  · intro h
    rw [h]
    rfl
  · intro h
    match rows with
    | [] => exact absurd rfl h
    | r0 :: rs =>
      refine ⟨rfl, groupsOf_flatten 20 (r0 :: rs) (by omega), ?_⟩
      have hf := groupsOf_flatten 20 (r0 :: rs) (by omega)
      calc ((groupsOf 20 (r0 :: rs)).map (fun g => g.length)).sum
          = ((groupsOf 20 (r0 :: rs)).map List.length).sum := rfl
        _ = ((groupsOf 20 (r0 :: rs)).flatten).length := (List.length_flatten _).symm
        _ = (r0 :: rs).length := by rw [hf]

/-- Witness for C3 on a concrete two-row table. -/
theorem chunkTable_conservation_witness :
    ¬ rowsW = [] ∧
    (chunkTable rowsW 20 = (groupsOf 20 rowsW).map (renderGroup (headersOf rowsW)) ∧
      (groupsOf 20 rowsW).flatten = rowsW ∧
      ((groupsOf 20 rowsW).map (fun g => g.length)).sum = rowsW.length) :=
  ⟨by decide, (chunkTable_conservation rowsW).2 (by decide)⟩

/-! ### Text chunk size (C4) -/

theorem chunkTextLoop_bound (n : Nat) (P0 : List String) :
    (ps : List String) → (cc : String) →
    (∀ p ∈ ps, p ∈ P0) →
    (cc = "" ∨ cc.length ≤ n + 2 ∨ ∃ p, p ∈ P0 ∧ n < p.length ∧ cc = p) →
    ∀ c ∈ chunkTextLoop n ps cc,
      c.length ≤ n + 2 ∨ ∃ p, p ∈ P0 ∧ n < p.length ∧ c = jsTrim p
  | [], cc => by
      intro _ hinv c hc
      simp only [chunkTextLoop] at hc
      split at hc
      · exact absurd hc (List.not_mem_nil c)
      · rename_i hcc
        rcases List.mem_singleton.mp hc with rfl
        rcases hinv with h | h | ⟨r, hr, hrlen, heq⟩
        · exact absurd h hcc
        · exact Or.inl (Nat.le_trans (jsTrim_length_le cc) h)
        · exact Or.inr ⟨r, hr, hrlen, by rw [heq]⟩
  | p :: ps, cc => by
      intro hsub hinv c hc
      have hpP0 : p ∈ P0 := hsub p (List.mem_cons_self p ps)
      have hsub' : ∀ q ∈ ps, q ∈ P0 := fun q hq => hsub q (List.mem_cons_of_mem p hq)
      have hinvp : p = "" ∨ p.length ≤ n + 2 ∨ ∃ r, r ∈ P0 ∧ n < r.length ∧ p = r := by
        by_cases hpl : p.length ≤ n + 2
        · exact Or.inr (Or.inl hpl)
        · exact Or.inr (Or.inr ⟨p, hpP0, by omega, rfl⟩)
      simp only [chunkTextLoop] at hc
      split at hc
      · rename_i hcond
        rcases List.mem_cons.mp hc with rfl | hcrec
        · have hccne : ¬ cc = "" := by
            have := hcond.2
            exact str_length_pos_iff.mp this
          rcases hinv with h | h | ⟨r, hr, hrlen, heq⟩
          · exact absurd h hccne
          · exact Or.inl (Nat.le_trans (jsTrim_length_le cc) h)
          · exact Or.inr ⟨r, hr, hrlen, by rw [heq]⟩
        · exact chunkTextLoop_bound n P0 ps p hsub' hinvp c hcrec
      · rename_i hcond
        by_cases hcc : cc = ""
        · have hstep : cc ++ (if cc = "" then ("") else ("\n\n")) ++ p = p := by
            rw [if_pos hcc, hcc]
            rw [str_empty_append, str_empty_append]
          rw [hstep] at hc
          exact chunkTextLoop_bound n P0 ps p hsub' hinvp c hc
        · have hccpos : 0 < cc.length := str_length_pos_iff.mpr hcc
          have hlenle : (cc ++ p).length ≤ n := by
            by_contra hgt
            exact hcond ⟨by omega, hccpos⟩
          have hsep : (("\n\n" : String)).length = 2 := by decide
          have hstep : (cc ++ (if cc = "" then ("") else ("\n\n")) ++ p).length =
              cc.length + 2 + p.length := by
            rw [if_neg hcc, String.length_append, String.length_append, hsep]
          have hinv' : (cc ++ (if cc = "" then ("") else ("\n\n")) ++ p).length ≤ n + 2 := by
            rw [hstep]
            rw [String.length_append] at hlenle
            omega
          exact chunkTextLoop_bound n P0 ps _ hsub' (Or.inr (Or.inl hinv')) c hc

/-- C4 counterexample: with target size 8 the two 4-character paragraphs
`"aaaa"` and `"bbbb"` are joined into the single 10-character chunk
`"aaaa\n\nbbbb"`, which exceeds the target even though no single paragraph
does — the flush test compares `(currentChunk + para).length` without the
2-character blank-line separator that the append actually inserts. -/
theorem chunkText_exceeds_target_cex :
    chunkText ("aaaa\n\nbbbb") 8 = [("aaaa\n\nbbbb")] ∧
    8 < (("aaaa\n\nbbbb" : String)).length ∧
    ∀ p ∈ splitParas ("aaaa\n\nbbbb"), p.length ≤ 8 := by
  refine ⟨by decide, by decide, by decide⟩

/-- C4 (amended): the buffer is flushed exactly when the plain
concatenation of buffer and next paragraph (separator not counted) exceeds
`targetSize` and the buffer is non-empty; consequently every produced
chunk is at most `targetSize + 2` characters long unless it is a single
(trimmed) paragraph that alone exceeds `targetSize`. -/
theorem chunkText_size_amended (text : String) (n : Nat) (c : String)
    (hc : c ∈ chunkText text n) :
    c.length ≤ n + 2 ∨ ∃ p, p ∈ splitParas text ∧ n < p.length ∧ c = jsTrim p :=
  chunkTextLoop_bound n (splitParas text) (splitParas text) ("")
    (fun _ hp => hp) (Or.inl rfl) c hc

/-- Witness for C4's amended theorem on a concrete text. -/
theorem chunkText_size_amended_witness :
    ("ab" : String) ∈ chunkText ("ab") 5 ∧
    ((("ab" : String)).length ≤ 5 + 2 ∨
      ∃ p, p ∈ splitParas ("ab") ∧ 5 < p.length ∧ ("ab" : String) = jsTrim p) :=
  ⟨by decide, chunkText_size_amended ("ab") 5 ("ab") (by decide)⟩

/-! ### Text chunk reconstruction (C2) -/

theorem joinParas_snoc (g : List String) (p : String) :
    joinParas (g ++ [p]) =
      joinParas g ++ (if joinParas g = "" then ("") else ("\n\n")) ++ p := by
  simp [joinParas, List.foldl_append]

theorem joinParas_singleton (p : String) : joinParas [p] = p := by
  show ("" ++ (if ("" : String) = "" then ("") else ("\n\n"))) ++ p = p
  rw [if_pos rfl, str_empty_append, str_empty_append]

theorem joinParas_from_empty :
    (g : List String) → (cc : String) →
    (g.foldl (fun acc p => acc ++ (if acc = "" then ("") else ("\n\n")) ++ p) cc = "" ↔
      cc = "" ∧ ∀ p ∈ g, p = "")
  | [], cc => by simp [List.foldl]
  | p :: g, cc => by
      simp only [List.foldl]
      rw [joinParas_from_empty g]
      constructor
      · rintro ⟨hstep, hall⟩
        rcases str_append_eq_empty.mp hstep with ⟨h1, hp⟩
        rcases str_append_eq_empty.mp h1 with ⟨hcc, _⟩
        refine ⟨hcc, fun q hq => ?_⟩
        rcases List.mem_cons.mp hq with rfl | hq2
        · exact hp
        · exact hall q hq2
      · rintro ⟨hcc, hall⟩
        have hp : p = "" := hall p (List.mem_cons_self p g)
        refine ⟨?_, fun q hq => hall q (List.mem_cons_of_mem p hq)⟩
        rw [hcc, hp, if_pos rfl]
        rfl

theorem joinParas_eq_empty {g : List String} : joinParas g = "" ↔ ∀ p ∈ g, p = "" := by
  rw [joinParas, joinParas_from_empty]
  simp

theorem chunkTextLoop_groups (n : Nat) :
    (ps : List String) → (g : List String) →
    chunkTextLoop n ps (joinParas g) =
      (chunkGroupsLoop n ps g).map (fun h => jsTrim (joinParas h))
  | [], g => by
      by_cases hje : joinParas g = "" <;> simp [chunkTextLoop, chunkGroupsLoop, hje]
  | p :: ps, g => by
      simp only [chunkTextLoop, chunkGroupsLoop]
      by_cases hcond : n < (joinParas g ++ p).length ∧ 0 < (joinParas g).length
      · rw [if_pos hcond, if_pos hcond, List.map_cons]
        congr 1
        conv_lhs => rw [← joinParas_singleton p]
        exact chunkTextLoop_groups n ps [p]
      · rw [if_neg hcond, if_neg hcond, ← joinParas_snoc]
        exact chunkTextLoop_groups n ps (g ++ [p])

theorem chunkGroupsLoop_flatten (n : Nat) :
    (ps : List String) → (g : List String) →
    ((chunkGroupsLoop n ps g).flatten).filter (fun p => !(p == "")) =
      (g ++ ps).filter (fun p => !(p == ""))
  | [], g => by
      simp only [chunkGroupsLoop]
      by_cases hje : joinParas g = ""
      · rw [if_pos hje]
        have hall := joinParas_eq_empty.mp hje
        simp only [List.flatten_nil, List.append_nil, List.filter_nil]
        exact (List.filter_eq_nil_iff.mpr (fun a ha => by simp [hall a ha])).symm
      · rw [if_neg hje]
        simp
  | p :: ps, g => by
      simp only [chunkGroupsLoop]
      by_cases hcond : n < (joinParas g ++ p).length ∧ 0 < (joinParas g).length
      · rw [if_pos hcond]
        simp only [List.flatten_cons, List.filter_append,
          chunkGroupsLoop_flatten n ps [p]]
        congr 1
        rw [← List.filter_append, List.singleton_append]
      · rw [if_neg hcond, chunkGroupsLoop_flatten n ps (g ++ [p])]
        simp

/-- C2: `chunkText` partitions the paragraph sequence of the input into
consecutive groups — `chunkGroups` — and renders each group by joining its
paragraphs with blank-line separators and trimming; the groups concatenate
back to exactly the non-empty paragraphs of the original text in order, so
no paragraph content is lost, duplicated, or reordered. -/
theorem chunkText_reconstruction (text : String) (n : Nat) :
    chunkText text n = (chunkGroups text n).map (fun g => jsTrim (joinParas g)) ∧
    ((chunkGroups text n).flatten).filter (fun p => !(p == "")) =
      (splitParas text).filter (fun p => !(p == "")) := by
  constructor
  · exact chunkTextLoop_groups n (splitParas text) []
  · have h := chunkGroupsLoop_flatten n (splitParas text) []
    simpa using h

end Goncalinho
